import Mathlib

/-!
Verification of the extraction and matching core of the resume analyzer
(src/resume_logic.py together with the scoring and admin-gate fragments of
src/App.py).

The Python code works by applying fixed regular expressions to text via
re.findall.  We embed that behaviour with a small executable regex engine
over List Char.  Each regular expression used by the program is a sequence
of primitive items (single character class, optional character, bounded
greedy repetition of a class, word boundary); the engine enumerates the
outcomes of each item in the exact preference order of the Python
backtracking matcher (greedy repetitions try the longest count first), so
the first overall success is the match Python reports, and findall is the
usual scan that restarts after the end of each non-overlapping match.

Character semantics are the ASCII fragment of the Python string and regex
semantics, which is the fragment exercised by the program (the character
classes in the source are ASCII-only); str.lower is modelled per character.
-/

/-- ASCII range test on character codes, used to model the regex classes. -/
def inRange (lo hi : Nat) (c : Char) : Bool :=
  decide (lo ≤ c.toNat ∧ c.toNat ≤ hi)

/-- The class [A-Z]. -/
def upperChar (c : Char) : Bool := inRange 65 90 c

/-- The class [a-z]. -/
def lowerChar (c : Char) : Bool := inRange 97 122 c

/-- The class [A-Za-z]. -/
def alphaChar (c : Char) : Bool := upperChar c || lowerChar c

/-- The class [0-9], regex d. -/
def digitChar (c : Char) : Bool := inRange 48 57 c

/-- Regex word characters (ASCII): letters, digits and the underscore. -/
def wordChar (c : Char) : Bool := alphaChar c || digitChar c || decide (c.toNat = 95)

/-- Regex whitespace (ASCII): space and the control characters 9 to 13. -/
def wsChar (c : Char) : Bool := decide (c.toNat = 32) || inRange 9 13 c

/-- The skill-token class [A-Za-z#+] from resume_logic.py line 50 and 59. -/
def skillChar (c : Char) : Bool :=
  alphaChar c || decide (c.toNat = 35) || decide (c.toNat = 43)

/-- The email-atom class of word characters, dot and hyphen. -/
def emailChar (c : Char) : Bool :=
  wordChar c || decide (c.toNat = 46) || decide (c.toNat = 45)

/-- The phone-body class of digits, whitespace, hyphen and parentheses. -/
def phoneChar (c : Char) : Bool :=
  digitChar c || wsChar c || decide (c.toNat = 45) ||
    decide (c.toNat = 40) || decide (c.toNat = 41)

/-- ASCII lowercasing, the per-character action of str.lower. -/
def pyToLower (c : Char) : Char :=
  if upperChar c then Char.ofNat (c.toNat + 32) else c

/-- str.lower on a whole string (ASCII model). -/
def pyLower (s : List Char) : List Char := s.map pyToLower

/-- str.strip with no argument: drop leading and trailing whitespace. -/
def pyStrip (s : List Char) : List Char :=
  ((s.dropWhile wsChar).reverse.dropWhile wsChar).reverse

/-- Primitive regex items; every pattern in the source is a sequence of
these.  rep p lo hi is the greedy bounded repetition of the class p
(hi = none meaning unbounded), opt the greedy optional single character,
wb the zero-width word boundary. -/
inductive Prim where
  | cls (p : Char → Bool)
  | opt (p : Char → Bool)
  | rep (p : Char → Bool) (lo : Nat) (hi : Option Nat)
  | wb

/-- A regex is a sequence of primitive items. -/
abbrev RE := List Prim

/-- Is an optional character a word character (out of range counts as not). -/
def wordOpt : Option Char → Bool
  | none => false
  | some c => wordChar c

/-- Is the first character of the remaining input a word character. -/
def wordHead : List Char → Bool
  | [] => false
  | c :: _ => wordChar c

/-- The character just before the position i characters into s, given the
character just before s itself; used to evaluate word boundaries after
consuming i characters. -/
def prevAfter (prev : Option Char) (s : List Char) (i : Nat) : Option Char :=
  if i = 0 then prev else (s.take i).getLast?

/-- The list [top, top-1, ..., lo] (empty when top < lo): the candidate
consumption counts of a greedy repetition, in preference order. -/
def countdown (top lo : Nat) : List Nat :=
  (List.range (top + 1 - lo)).map (fun k => top - k)

/-- All ways a primitive item can consume input, as pairs of the new
previous character and the remaining input, listed in the preference order
of the Python backtracking matcher. -/
def primOutcomes : Prim → Option Char → List Char → List (Option Char × List Char)
  | .cls _, _, [] => []
  | .cls p, _, c :: rest => if p c then [(some c, rest)] else []
  | .opt _, prev, [] => [(prev, [])]
  | .opt p, prev, c :: rest =>
      if p c then [(some c, rest), (prev, c :: rest)] else [(prev, c :: rest)]
  | .wb, prev, s => if wordOpt prev != wordHead s then [(prev, s)] else []
  | .rep p lo hi, prev, s =>
      let maxN := (s.takeWhile p).length
      let top := match hi with
        | some h => min h maxN
        | none => maxN
      (countdown top lo).map (fun i => (prevAfter prev s i, s.drop i))

/-- All ways a regex can match a prefix of the input, in backtracking
preference order; the head of this list is the match Python commits to. -/
def matchAll : RE → Option Char → List Char → List (Option Char × List Char)
  | [], prev, s => [(prev, s)]
  | p :: ps, prev, s => (primOutcomes p prev s).flatMap (fun a => matchAll ps a.1 a.2)

/-- The remaining input after the match at the current position, if the
regex matches here (the first outcome in preference order). -/
def matchRem (re : RE) (prev : Option Char) (s : List Char) : Option (List Char) :=
  (matchAll re prev s).head?.map (fun a => a.2)

/-- One step of re.findall: scan for the next match, emit the matched
segment, and continue after it (advancing one character past a zero-width
match).  The fuel argument is a structural bound, always called with
fuel at least the length of s. -/
def findallAux (re : RE) : Nat → Option Char → List Char → List (List Char)
  | _, prev, [] =>
      match matchRem re prev [] with
      | some _ => [[]]
      | none => []
  | 0, _, _ => []
  | fuel + 1, prev, c :: rest =>
      let s := c :: rest
      match matchRem re prev s with
      | some s' =>
          let m := s.length - s'.length
          if 0 < m then
            s.take m :: findallAux re fuel (prevAfter prev s m) (s.drop m)
          else
            [] :: findallAux re fuel (some c) rest
      | none => findallAux re fuel (some c) rest

/-- re.findall of a pattern over a whole string. -/
def pyFindall (re : RE) (t : List Char) : List (List Char) :=
  findallAux re t.length none t

/-- The name pattern from resume_logic.py line 47: an upper-case letter,
lower-case letters, one whitespace character, an upper-case letter,
lower-case letters. -/
def nameRE : RE :=
  [.cls upperChar, .rep lowerChar 1 none, .cls wsChar,
   .cls upperChar, .rep lowerChar 1 none]

/-- The email pattern from resume_logic.py line 48. -/
def emailRE : RE :=
  [.rep emailChar 1 none, .cls (fun c => decide (c.toNat = 64)),
   .rep emailChar 1 none, .cls (fun c => decide (c.toNat = 46)),
   .rep wordChar 1 none]

/-- The phone pattern from resume_logic.py line 49: an optional plus, a
digit, at least eight characters of digits, whitespace, hyphens and
parentheses, and a final digit. -/
def phoneRE : RE :=
  [.opt (fun c => decide (c.toNat = 43)), .cls digitChar,
   .rep phoneChar 8 none, .cls digitChar]

/-- The skill-token pattern from resume_logic.py lines 50 and 59: a word
boundary, two to fifteen characters of letters, hash and plus, and a word
boundary. -/
def skillRE : RE := [.wb, .rep skillChar 2 (some 15), .wb]

/-- The result of extract_candidate_details: the four fields of the
returned dictionary. -/
structure CandidateDetails where
  Name : String
  Email : String
  Phone : String
  Skills : List String
deriving DecidableEq

/-- extract_candidate_details from resume_logic.py lines 46 to 56.  The
first match of each field pattern, or its sentinel; the skill tokens of
the lowercased text collected into a set.  The Python expression
list(set(skills)) has an unspecified order, modelled here as an
order-preserving deduplication; every claim reads Skills only up to
membership. -/
def extract_candidate_details (text : String) : CandidateDetails :=
  { Name :=
      match pyFindall nameRE text.data with
      | [] => "Unknown"
      | m :: _ => ⟨m⟩
    Email :=
      match pyFindall emailRE text.data with
      | [] => "Not Found"
      | m :: _ => ⟨m⟩
    Phone :=
      match pyFindall phoneRE text.data with
      | [] => "Not Found"
      | m :: _ => ⟨m⟩
    Skills :=
      ((pyFindall skillRE (pyLower text.data)).map
        (fun m => (⟨m⟩ : String))).dedup }

/-- extract_skills_from_jd from resume_logic.py lines 58 and 59: each raw
match of the skill pattern, lowercased and stripped, in order of
appearance, without deduplication. -/
def extract_skills_from_jd (jd_text : String) : List String :=
  (pyFindall skillRE jd_text.data).map
    (fun s => (⟨pyStrip (pyLower s)⟩ : String))

/-- detect_skill_gaps from resume_logic.py lines 61 to 64: the job tokens
present in the candidate skills, and those absent, each in job order. -/
def detect_skill_gaps (jd_skills resume_skills : List String) :
    List String × List String :=
  (jd_skills.filter (fun s => resume_skills.contains s),
   jd_skills.filter (fun s => !resume_skills.contains s))

/-- The static role-to-skill-text mapping ROLE_SKILLS from
resume_logic.py lines 72 to 79. -/
def ROLE_SKILLS : List (String × String) :=
  [("Frontend Developer", "HTML CSS JavaScript React UI UX"),
   ("Backend Developer", "Python Django Flask SQL APIs"),
   ("Full Stack Developer", "HTML CSS JS Node React Python SQL"),
   ("Data Scientist", "Python SQL Machine Learning Statistics Pandas Numpy"),
   ("DevOps Engineer", "AWS Docker Kubernetes Linux CI/CD"),
   ("Cloud Engineer", "AWS Azure GCP Terraform DevOps")]

/-- ROLE_SKILLS.get(role, "") as used by App.py line 154. -/
def role_skill_text (role : String) : String :=
  ((ROLE_SKILLS.lookup role).getD "")

/-- Rounding a rational to two decimal places: the exact-arithmetic model
of the Python expression round(x, 2) as applied by App.py (the claims
settled here do not depend on the tie-breaking convention of the binary
floating-point round, so the half-up convention of Mathlib round is
used). -/
def roundTo2 (x : ℚ) : ℚ := (round (x * 100) : ℤ) / 100

/-- The similarity score stored by the analysis loop, App.py lines 173 and
185: round(similarity * 100, 2), where similarity is the cosine value
returned by the embedding collaborator. -/
def similarity_score (cos_sim : ℚ) : ℚ := roundTo2 (cos_sim * 100)

/-- One persisted row of the candidates table (resume_logic.py lines 10
to 21). -/
structure CandidateRow where
  name : String
  email : String
  phone : String
  filename : String
  job_category : String
  role : String
  similarity : ℚ
  matched_skills : String
  skill_gaps : String
deriving DecidableEq

/-- What the admin page renders after a login attempt: the stored table,
or the invalid-credentials error. -/
inductive AdminView where
  | shown (rows : List CandidateRow)
  | loginError
deriving DecidableEq

/-- The admin panel of App.py lines 264 to 316: the fixed credential check
of line 271, showing all stored data on success and an error otherwise;
the panel never writes to the store, so the store is returned unchanged in
both branches. -/
def admin_panel (username password : String) (store : List CandidateRow) :
    AdminView × List CandidateRow :=
  if username = "admin" ∧ password = "12345" then
    (AdminView.shown store, store)
  else
    (AdminView.loginError, store)

/-- l is an interleaving of m and g: every element of l is drawn from
exactly one of m and g, keeping the relative order of each. -/
inductive IsInterleaving : List String → List String → List String → Prop where
  | nil : IsInterleaving [] [] []
  | left {a : String} {m g l : List String} :
      IsInterleaving m g l → IsInterleaving (a :: m) g (a :: l)
  | right {a : String} {m g l : List String} :
      IsInterleaving m g l → IsInterleaving m (a :: g) (a :: l)

/-! ## Skill-gap detection (claims C1, C4, C9) -/

/-- Claim C1: for every list of job-description tokens and every candidate
skill set, the matched and gaps lists returned by detect_skill_gaps
partition the job tokens at set level: an element belongs to matched or to
gaps exactly when it is a job token, and no element belongs to both. -/
theorem detect_skill_gaps_partition (jd rs : List String) :
    (∀ x : String,
      (x ∈ (detect_skill_gaps jd rs).1 ∨ x ∈ (detect_skill_gaps jd rs).2) ↔ x ∈ jd) ∧
    (∀ x : String,
      ¬(x ∈ (detect_skill_gaps jd rs).1 ∧ x ∈ (detect_skill_gaps jd rs).2)) := by
  constructor
  · intro x
    constructor
    · rintro (h | h)
      · exact (List.mem_filter.mp h).1
      · exact (List.mem_filter.mp h).1
    · intro h
      by_cases hm : rs.contains x = true
      · exact Or.inl (List.mem_filter.mpr ⟨h, hm⟩)
      · exact Or.inr (List.mem_filter.mpr ⟨h, by simpa using hm⟩)
  · rintro x ⟨h1, h2⟩
    have a1 : rs.contains x = true := (List.mem_filter.mp h1).2
    have a2 : (!rs.contains x) = true := (List.mem_filter.mp h2).2
    rw [a1] at a2
    exact absurd a2 (by decide)

/-- Claim C4: detect_skill_gaps puts into matched exactly the job tokens
present in the candidate set and into gaps exactly those absent, each an
order-preserving subsequence of the job token list, and on the concrete
example jobTokens = [python, sql, react], candidateSkills = [python, java]
it returns matched = [python] and gaps = [sql, react]. -/
theorem detect_skill_gaps_exact (jd rs : List String) :
    (∀ x : String, x ∈ (detect_skill_gaps jd rs).1 ↔ x ∈ jd ∧ x ∈ rs) ∧
    (∀ x : String, x ∈ (detect_skill_gaps jd rs).2 ↔ x ∈ jd ∧ x ∉ rs) ∧
    (detect_skill_gaps jd rs).1.Sublist jd ∧
    (detect_skill_gaps jd rs).2.Sublist jd ∧
    detect_skill_gaps ["python", "sql", "react"] ["python", "java"] =
      (["python"], ["sql", "react"]) := by
  refine ⟨?_, ?_, List.filter_sublist jd, List.filter_sublist jd, by decide⟩
  · intro x
    simp [detect_skill_gaps, List.mem_filter, List.elem_iff]
  · intro x
    simp [detect_skill_gaps, List.mem_filter, List.elem_iff]

/-- Claim C9: detect_skill_gaps preserves multiplicity and position: the
lengths of matched and gaps add up to the length of the job token list,
and the job token list is an interleaving of matched and gaps (each
occurrence of a job token goes to exactly one of the two lists, in
order). -/
theorem detect_skill_gaps_reassembly (jd rs : List String) :
    (detect_skill_gaps jd rs).1.length + (detect_skill_gaps jd rs).2.length
      = jd.length ∧
    IsInterleaving (detect_skill_gaps jd rs).1 (detect_skill_gaps jd rs).2 jd := by
  induction jd with
  | nil => exact ⟨rfl, IsInterleaving.nil⟩
  | cons a l ih =>
    rcases ih with ⟨hlen, hint⟩
    by_cases h : rs.contains a = true
    · have e : detect_skill_gaps (a :: l) rs =
          (a :: (detect_skill_gaps l rs).1, (detect_skill_gaps l rs).2) := by
        have hm : a ∈ rs := List.elem_iff.mp h
        simp [detect_skill_gaps, List.filter_cons, h, hm]
      rw [e]
      refine ⟨?_, IsInterleaving.left hint⟩
      simp only [List.length_cons]
      omega
    · have hb : rs.contains a = false := by
        simpa using h
      have e : detect_skill_gaps (a :: l) rs =
          ((detect_skill_gaps l rs).1, a :: (detect_skill_gaps l rs).2) := by
        have hm : a ∉ rs := fun hc => h (List.elem_iff.mpr hc)
        simp [detect_skill_gaps, List.filter_cons, hb, hm]
      rw [e]
      refine ⟨?_, IsInterleaving.right hint⟩
      simp only [List.length_cons]
      omega

/-! ## Skill tokenization of standalone c# and c++ (claim C2) -/

/-- Claim C2, evaluation at the failing input: on the text
"c# c++", which contains the standalone tokens c# and c++, the extracted
skill set is empty; in particular neither c# nor c++ appears.  The
word-boundary anchors of the pattern on resume_logic.py line 50 can never
succeed after a trailing hash or plus, so the tokens the character class
was written to capture are unmatchable when standalone. -/
theorem skills_missing_csharp_cpp :
    (extract_candidate_details "c# c++").Skills = [] ∧
    "c#" ∉ (extract_candidate_details "c# c++").Skills ∧
    "c++" ∉ (extract_candidate_details "c# c++").Skills := by
  decide

/-! ## Similarity scoring (claim C3) -/

/-- Claim C3, counterexample: the cosine value -1 is allowed by the
interface contract of the embedding collaborator, yet the stored score is
-100, which does not lie in the range 0 to 100. -/
theorem similarity_score_neg_cex :
    (-1 : ℚ) ≤ (-1 : ℚ) ∧ ((-1 : ℚ) ≤ 1) ∧
    similarity_score (-1) = -100 ∧ ¬(0 ≤ similarity_score (-1)) := by
  have h : similarity_score (-1) = -100 := by
    have e : ((-1 : ℚ) * 100 * 100) = ((-10000 : ℤ) : ℚ) := by norm_num
    simp only [similarity_score, roundTo2, e, round_intCast]
    norm_num
  refine ⟨le_refl _, by norm_num, h, ?_⟩
  rw [h]
  norm_num

/-- Rounding of rationals is monotone. -/
theorem round_rat_mono {x y : ℚ} (h : x ≤ y) : round x ≤ round y := by
  rw [round_eq, round_eq]
  exact Int.floor_le_floor (by linarith)

/-- Claim C3 as amended: for every cosine value in the interval from -1
to 1, the stored score equals the cosine scaled by 100 and rounded to two
decimals, hence lies in the range -100 to 100 (not 0 to 100), and is
nonnegative whenever the cosine is nonnegative. -/
theorem similarity_score_range (c : ℚ) (h1 : -1 ≤ c) (h2 : c ≤ 1) :
    similarity_score c = ((round (c * 100 * 100) : ℤ) : ℚ) / 100 ∧
    -100 ≤ similarity_score c ∧ similarity_score c ≤ 100 ∧
    (0 ≤ c → 0 ≤ similarity_score c) := by
  have e : similarity_score c = ((round (c * 100 * 100) : ℤ) : ℚ) / 100 := rfl
  have baseLo : round ((-10000 : ℚ)) = (-10000 : ℤ) := by
    rw [show ((-10000 : ℚ)) = ((-10000 : ℤ) : ℚ) by norm_num, round_intCast]
  have baseHi : round ((10000 : ℚ)) = (10000 : ℤ) := by
    rw [show ((10000 : ℚ)) = ((10000 : ℤ) : ℚ) by norm_num, round_intCast]
  have lo : ((-10000 : ℤ)) ≤ round (c * 100 * 100) := by
    have h := round_rat_mono (x := (-10000 : ℚ)) (y := c * 100 * 100) (by nlinarith)
    rwa [baseLo] at h
  have hi : round (c * 100 * 100) ≤ (10000 : ℤ) := by
    have h := round_rat_mono (x := c * 100 * 100) (y := (10000 : ℚ)) (by nlinarith)
    rwa [baseHi] at h
  have loq : ((-10000 : ℚ)) ≤ ((round (c * 100 * 100) : ℤ) : ℚ) := by
    exact_mod_cast lo
  have hiq : ((round (c * 100 * 100) : ℤ) : ℚ) ≤ 10000 := by
    exact_mod_cast hi
  refine ⟨e, by rw [e]; linarith, by rw [e]; linarith, ?_⟩
  intro hc
  have lo0 : ((0 : ℤ)) ≤ round (c * 100 * 100) := by
    have : round ((0 : ℚ)) ≤ round (c * 100 * 100) :=
      round_rat_mono (by nlinarith)
    simpa [round_zero] using this
  have lo0q : ((0 : ℚ)) ≤ ((round (c * 100 * 100) : ℤ) : ℚ) := by
    exact_mod_cast lo0
  rw [e]
  positivity

/-- Claim C3 witness: the amended range theorem evaluated at the concrete
cosine value 7/10, whose score is 70. -/
theorem similarity_score_range_witness :
    similarity_score (7 / 10) = ((round ((7 / 10 : ℚ) * 100 * 100) : ℤ) : ℚ) / 100 ∧
    -100 ≤ similarity_score (7 / 10) ∧ similarity_score (7 / 10) ≤ 100 ∧
    (0 ≤ (7 / 10 : ℚ) → 0 ≤ similarity_score (7 / 10)) :=
  similarity_score_range (7 / 10) (by norm_num) (by norm_num)

/-! ## Admin gate (claim C8) -/

/-- Claim C8: the login succeeds, showing the stored data, exactly for the
pair admin and 12345; every other pair yields the error view, exposes no
rows, and leaves the store unchanged (the panel never writes to the store
in either branch). -/
theorem admin_login_exact (u p : String) (store : List CandidateRow) :
    ((admin_panel u p store).1 = AdminView.shown store ↔ (u = "admin" ∧ p = "12345")) ∧
    (admin_panel u p store).2 = store ∧
    (¬(u = "admin" ∧ p = "12345") →
      (admin_panel u p store).1 = AdminView.loginError) := by
  by_cases h : u = "admin" ∧ p = "12345" <;> simp [admin_panel, h]

/-- Claim C8 witness: a rejected login attempt with the wrong password, on
a store holding one row, yields the error view and the unchanged store. -/
theorem admin_login_exact_witness :
    (admin_panel "admin" "wrong"
        [⟨"Ann Bee", "a@b.co", "+91 98765-43210", "cv.pdf", "Data & Analytics",
          "Data Scientist", 70, "python, sql", "pandas"⟩]).1
      = AdminView.loginError ∧
    (admin_panel "admin" "wrong"
        [⟨"Ann Bee", "a@b.co", "+91 98765-43210", "cv.pdf", "Data & Analytics",
          "Data Scientist", 70, "python, sql", "pandas"⟩]).2
      = [⟨"Ann Bee", "a@b.co", "+91 98765-43210", "cv.pdf", "Data & Analytics",
          "Data Scientist", 70, "python, sql", "pandas"⟩] := by
  have h := admin_login_exact "admin" "wrong"
    [⟨"Ann Bee", "a@b.co", "+91 98765-43210", "cv.pdf", "Data & Analytics",
      "Data Scientist", 70, "python, sql", "pandas"⟩]
  exact ⟨h.2.2 (by simp), h.2.1⟩

/-! ## Character-level lemmas -/

/-- Evaluating Char.ofNat on a scalar value below the surrogate range. -/
theorem toNat_ofNat_valid (n : Nat) (h : n < 55296) : (Char.ofNat n).toNat = n := by
  unfold Char.ofNat
  rw [dif_pos (Or.inl h)]
  rfl

/-- The character code of the ASCII lowercasing of a character. -/
theorem toNat_pyToLower (c : Char) :
    (pyToLower c).toNat =
      if 65 ≤ c.toNat ∧ c.toNat ≤ 90 then c.toNat + 32 else c.toNat := by
  by_cases h : 65 ≤ c.toNat ∧ c.toNat ≤ 90
  · have hu : upperChar c = true := by
      simp only [upperChar, inRange, decide_eq_true_eq]
      exact h
    rw [if_pos h]
    simp only [pyToLower, hu, if_true]
    exact toNat_ofNat_valid _ (by omega)
  · have hu : upperChar c = false := by
      simp only [upperChar, inRange, decide_eq_false_iff_not]
      exact h
    rw [if_neg h]
    simp [pyToLower, hu]

/-- The skill-token class is invariant under lowercasing. -/
theorem skillChar_pyToLower (c : Char) : skillChar (pyToLower c) = skillChar c := by
  have hn := toNat_pyToLower c
  rw [Bool.eq_iff_iff]
  simp only [skillChar, alphaChar, upperChar, lowerChar, inRange, Bool.or_eq_true,
    decide_eq_true_eq, hn]
  by_cases h : 65 ≤ c.toNat ∧ c.toNat ≤ 90
  · rw [if_pos h]
    omega
  · rw [if_neg h]

/-- The word-character class is invariant under lowercasing. -/
theorem wordChar_pyToLower (c : Char) : wordChar (pyToLower c) = wordChar c := by
  have hn := toNat_pyToLower c
  rw [Bool.eq_iff_iff]
  simp only [wordChar, alphaChar, upperChar, lowerChar, digitChar, inRange,
    Bool.or_eq_true, decide_eq_true_eq, hn]
  by_cases h : 65 ≤ c.toNat ∧ c.toNat ≤ 90
  · rw [if_pos h]
    omega
  · rw [if_neg h]

/-- Skill-token characters are never whitespace. -/
theorem skillChar_not_ws {c : Char} (h : skillChar c = true) : wsChar c = false := by
  revert h
  simp only [skillChar, alphaChar, upperChar, lowerChar, inRange, wsChar,
    Bool.or_eq_true, decide_eq_true_eq]
  intro h
  simp only [Bool.or_eq_false_iff, decide_eq_false_iff_not, inRange]
  omega

/-- Skill-token characters are never the slash. -/
theorem skillChar_ne_slash {c : Char} (h : skillChar c = true) : c ≠ '/' := by
  intro he
  subst he
  exact absurd h (by decide)

/-! ## Basic engine lemmas -/

/-- Membership in the countdown list of a greedy repetition. -/
theorem countdown_mem {top lo i : Nat} : i ∈ countdown top lo ↔ lo ≤ i ∧ i ≤ top := by
  simp only [countdown, List.mem_map, List.mem_range]
  constructor
  · rintro ⟨k, hk, rfl⟩
    omega
  · rintro ⟨h1, h2⟩
    exact ⟨top - i, by omega, by omega⟩

/-- The head of a list, when present, is a member. -/
theorem head?_mem {α : Type} {l : List α} {a : α} (h : l.head? = some a) : a ∈ l := by
  cases l with
  | nil => simp at h
  | cons b t =>
    simp only [List.head?_cons, Option.some.injEq] at h
    subst h
    exact List.mem_cons_self b t

/-- Characters of a take within the takeWhile prefix all satisfy the
predicate. -/
theorem all_take_of_le_takeWhile {p : Char → Bool} :
    ∀ (s : List Char) (i : Nat), i ≤ (s.takeWhile p).length →
      ∀ c ∈ s.take i, p c = true := by
  intro s
  induction s with
  | nil =>
    intro i h c hc
    simp at hc
  | cons a t ih =>
    intro i h c hc
    by_cases hp : p a = true
    · rw [List.takeWhile_cons, if_pos hp] at h
      cases i with
      | zero => simp at hc
      | succ n =>
        rw [List.take_succ_cons, List.mem_cons] at hc
        rcases hc with rfl | hc
        · exact hp
        · exact ih n (by simpa using h) c hc
    · rw [List.takeWhile_cons, if_neg hp] at h
      simp only [List.length_nil, Nat.le_zero] at h
      subst h
      simp at hc

/-- The previous-character tracker after consuming one more character. -/
theorem prevAfter_cons {prev : Option Char} {c : Char} {rest : List Char} {i : Nat}
    (h : i ≤ rest.length) :
    prevAfter prev (c :: rest) (i + 1) = prevAfter (some c) rest i := by
  cases i with
  | zero => simp [prevAfter]
  | succ n =>
    have hne : rest.take (n + 1) ≠ [] := by
      cases rest with
      | nil => simp at h
      | cons b t => simp [List.take_succ_cons]
    simp only [prevAfter, Nat.succ_ne_zero, if_false, List.take_succ_cons]
    rw [List.getLast?_cons]
    cases hg : (rest.take (n + 1)).getLast? with
    | none => exact absurd (List.getLast?_eq_none_iff.mp hg) hne
    | some b => simp

/-- Unfolding findallAux on the empty input (any fuel). -/
theorem findallAux_nil (re : RE) (fuel : Nat) (prev : Option Char) :
    findallAux re fuel prev [] =
      (match matchRem re prev [] with
      | some _ => [[]]
      | none => []) := by
  cases fuel <;> rfl

/-- Unfolding findallAux on a nonempty input with positive fuel. -/
theorem findallAux_cons (re : RE) (fuel : Nat) (prev : Option Char) (c : Char)
    (rest : List Char) :
    findallAux re (fuel + 1) prev (c :: rest) =
      (match matchRem re prev (c :: rest) with
      | some s' =>
          if 0 < (c :: rest).length - s'.length then
            (c :: rest).take ((c :: rest).length - s'.length) ::
              findallAux re fuel
                (prevAfter prev (c :: rest) ((c :: rest).length - s'.length))
                ((c :: rest).drop ((c :: rest).length - s'.length))
          else
            [] :: findallAux re fuel (some c) rest
      | none => findallAux re fuel (some c) rest) := rfl

/-- Structure of a successful match of the skill pattern: it consumes a
block of at least two characters lying inside the leading run of
skill-class characters, so every consumed character is in the class. -/
theorem matchRem_skill {prev : Option Char} {s s' : List Char}
    (h : matchRem skillRE prev s = some s') :
    ∃ j, 2 ≤ j ∧ j ≤ (s.takeWhile skillChar).length ∧ s' = s.drop j ∧
      ∀ c ∈ s.take j, skillChar c = true := by
  unfold matchRem at h
  cases hh : (matchAll skillRE prev s).head? with
  | none =>
    rw [hh] at h
    simp at h
  | some a =>
    rw [hh] at h
    simp only [Option.map_some', Option.some.injEq] at h
    have ha : a ∈ matchAll skillRE prev s := head?_mem hh
    simp only [skillRE, matchAll, List.mem_flatMap] at ha
    obtain ⟨a1, ha1, a2, ha2, a3, ha3, hfin⟩ := ha
    -- first word boundary passes the state through
    rw [primOutcomes] at ha1
    split at ha1
    case isFalse => simp at ha1
    case isTrue =>
      simp only [List.mem_singleton] at ha1
      subst ha1
      -- the repetition consumes j characters of the class run
      simp only [primOutcomes, List.mem_map] at ha2
      obtain ⟨j, hj, ha2⟩ := ha2
      rw [countdown_mem] at hj
      subst ha2
      -- second word boundary passes the state through
      rw [primOutcomes] at ha3
      split at ha3
      case isFalse => simp at ha3
      case isTrue =>
        simp only [List.mem_singleton] at ha3
        subst ha3
        simp only [List.mem_singleton] at hfin
        subst hfin
        refine ⟨j, hj.1, ?_, h.symm, ?_⟩
        · exact le_trans hj.2 (min_le_right 15 _)
        · exact all_take_of_le_takeWhile s j
            (le_trans hj.2 (min_le_right 15 _))

/-- The takeWhile prefix is no longer than the list. -/
theorem takeWhile_length_le (p : Char → Bool) (s : List Char) :
    (s.takeWhile p).length ≤ s.length := by
  induction s with
  | nil => simp
  | cons a t ih =>
    rw [List.takeWhile_cons]
    split
    · simpa using ih
    · simp

/-- Every token produced by scanning with the skill pattern consists of
skill-class characters only. -/
theorem findallAux_skill_chars :
    ∀ (fuel : Nat) (prev : Option Char) (s : List Char), s.length ≤ fuel →
      ∀ tok ∈ findallAux skillRE fuel prev s, ∀ c ∈ tok, skillChar c = true := by
  intro fuel
  induction fuel with
  | zero =>
    intro prev s hs tok htok c hc
    have : s = [] := List.length_eq_zero.mp (Nat.le_zero.mp hs)
    subst this
    rw [findallAux_nil] at htok
    cases hm : matchRem skillRE prev [] with
    | none =>
      rw [hm] at htok
      simp at htok
    | some s' =>
      rw [hm] at htok
      simp only [List.mem_singleton] at htok
      subst htok
      simp at hc
  | succ fuel ih =>
    intro prev s hs tok htok c hc
    cases s with
    | nil =>
      rw [findallAux_nil] at htok
      cases hm : matchRem skillRE prev [] with
      | none =>
        rw [hm] at htok
        simp at htok
      | some s' =>
        rw [hm] at htok
        simp only [List.mem_singleton] at htok
        subst htok
        simp at hc
    | cons a rest =>
      cases hm : matchRem skillRE prev (a :: rest) with
      | none =>
        rw [findallAux_cons, hm] at htok
        have hr : rest.length ≤ fuel := by
          simp only [List.length_cons] at hs
          omega
        exact ih (some a) rest hr tok htok c hc
      | some s' =>
        obtain ⟨j, hj2, hjle, rfl, hall⟩ := matchRem_skill hm
        have hjlen : j ≤ (a :: rest).length :=
          hjle.trans (takeWhile_length_le _ _)
        have red : findallAux skillRE (fuel + 1) prev (a :: rest) =
            (a :: rest).take j ::
              findallAux skillRE fuel (prevAfter prev (a :: rest) j)
                ((a :: rest).drop j) := by
          rw [findallAux_cons, hm]
          simp only [List.length_drop]
          rw [show (a :: rest).length - ((a :: rest).length - j) = j from by omega]
          rw [if_pos (by omega)]
        rw [red] at htok
        rcases List.mem_cons.mp htok with rfl | htok
        · exact hall c hc
        · have hlen2 : ((a :: rest).drop j).length ≤ fuel := by
            rw [List.length_drop]
            simp only [List.length_cons] at hs ⊢
            omega
          exact ih _ _ hlen2 tok htok c hc

/-! ## Lowercasing equivariance of the matcher

The skill pattern is applied by the source once to already-lowercased text
(extract_candidate_details) and once to raw text with the matches
lowercased afterwards (extract_skills_from_jd).  Both its character class
and the word-boundary test are invariant under ASCII lowercasing, so the
two orders of operations give the same tokens. -/

/-- A primitive item whose character classes are invariant under ASCII
lowercasing. -/
def PrimInv : Prim → Prop
  | .cls p => ∀ c, p (pyToLower c) = p c
  | .opt p => ∀ c, p (pyToLower c) = p c
  | .rep p _ _ => ∀ c, p (pyToLower c) = p c
  | .wb => True

/-- Lowercasing one matcher outcome. -/
def lowerOutcome (a : Option Char × List Char) : Option Char × List Char :=
  (a.1.map pyToLower, a.2.map pyToLower)

/-- takeWhile with a lowercasing-invariant predicate commutes with
lowercasing. -/
theorem takeWhile_map_inv {p : Char → Bool} (hp : ∀ c, p (pyToLower c) = p c) :
    ∀ s : List Char, (s.map pyToLower).takeWhile p = (s.takeWhile p).map pyToLower := by
  intro s
  induction s with
  | nil => simp
  | cons a t ih =>
    rw [List.map_cons, List.takeWhile_cons, List.takeWhile_cons, hp a]
    cases hpa : p a <;> simp [ih]

/-- The previous-character tracker commutes with lowercasing. -/
theorem prevAfter_map (prev : Option Char) (s : List Char) (i : Nat) :
    prevAfter (prev.map pyToLower) (s.map pyToLower) i =
      (prevAfter prev s i).map pyToLower := by
  by_cases h : i = 0
  · simp [prevAfter, h]
  · simp [prevAfter, h, ← List.map_take, List.getLast?_map]

/-- Word-character status of the tracked previous character is invariant
under lowercasing. -/
theorem wordOpt_map (prev : Option Char) :
    wordOpt (prev.map pyToLower) = wordOpt prev := by
  cases prev <;> simp [wordOpt, wordChar_pyToLower]

/-- Word-character status of the head of the input is invariant under
lowercasing. -/
theorem wordHead_map (s : List Char) :
    wordHead (s.map pyToLower) = wordHead s := by
  cases s <;> simp [wordHead, wordChar_pyToLower]

/-- Outcomes of an invariant primitive item on lowercased input are the
lowercased outcomes on the original input. -/
theorem primOutcomes_map {pm : Prim} (hp : PrimInv pm) (prev : Option Char)
    (s : List Char) :
    primOutcomes pm (prev.map pyToLower) (s.map pyToLower) =
      (primOutcomes pm prev s).map lowerOutcome := by
  cases pm with
  | cls p =>
    cases s with
    | nil => rfl
    | cons a t =>
      simp only [List.map_cons, primOutcomes, hp a]
      cases hpa : p a <;> simp [lowerOutcome]
  | opt p =>
    cases s with
    | nil => simp [primOutcomes, lowerOutcome]
    | cons a t =>
      simp only [List.map_cons, primOutcomes, hp a]
      cases hpa : p a <;> simp [lowerOutcome]
  | wb =>
    simp only [primOutcomes, wordOpt_map, wordHead_map]
    split <;> simp [lowerOutcome]
  | rep p lo hi =>
    simp only [primOutcomes, takeWhile_map_inv hp, List.length_map]
    rw [List.map_map]
    apply List.map_congr_left
    intro i _
    simp [lowerOutcome, prevAfter_map, List.map_drop]

/-- Matching an invariant regex on lowercased input yields the lowercased
outcomes of the match on the original input. -/
theorem matchAll_map {re : RE} (hre : ∀ pm ∈ re, PrimInv pm) :
    ∀ (prev : Option Char) (s : List Char),
      matchAll re (prev.map pyToLower) (s.map pyToLower) =
        (matchAll re prev s).map lowerOutcome := by
  induction re with
  | nil =>
    intro prev s
    simp [matchAll, lowerOutcome]
  | cons pm ps ih =>
    intro prev s
    have h1 : PrimInv pm := hre pm (List.mem_cons_self _ _)
    have h2 : ∀ q ∈ ps, PrimInv q := fun q hq => hre q (List.mem_cons_of_mem _ hq)
    simp only [matchAll]
    rw [primOutcomes_map h1, List.flatMap_map, List.map_flatMap]
    apply List.flatMap_congr
    intro a _
    exact ih h2 a.1 a.2

/-- The committed match on lowercased input is the lowercased committed
match. -/
theorem matchRem_map {re : RE} (hre : ∀ pm ∈ re, PrimInv pm) (prev : Option Char)
    (s : List Char) :
    matchRem re (prev.map pyToLower) (s.map pyToLower) =
      (matchRem re prev s).map (List.map pyToLower) := by
  unfold matchRem
  rw [matchAll_map hre, List.head?_map]
  cases (matchAll re prev s).head? <;> simp [lowerOutcome]

/-- Scanning lowercased input with an invariant regex yields the
lowercased tokens of scanning the original input. -/
theorem findallAux_map {re : RE} (hre : ∀ pm ∈ re, PrimInv pm) :
    ∀ (fuel : Nat) (prev : Option Char) (s : List Char), s.length ≤ fuel →
      findallAux re fuel (prev.map pyToLower) (s.map pyToLower) =
        (findallAux re fuel prev s).map (List.map pyToLower) := by
  intro fuel
  induction fuel with
  | zero =>
    intro prev s hs
    have hnil : s = [] := List.length_eq_zero.mp (Nat.le_zero.mp hs)
    subst hnil
    simp only [List.map_nil]
    rw [findallAux_nil, findallAux_nil]
    have hm : matchRem re (prev.map pyToLower) [] =
        (matchRem re prev []).map (List.map pyToLower) := by
      have := matchRem_map hre prev []
      simpa using this
    rw [hm]
    cases matchRem re prev [] <;> simp
  | succ fuel ih =>
    intro prev s hs
    cases s with
    | nil =>
      simp only [List.map_nil]
      rw [findallAux_nil, findallAux_nil]
      have hm : matchRem re (prev.map pyToLower) [] =
          (matchRem re prev []).map (List.map pyToLower) := by
        have := matchRem_map hre prev []
        simpa using this
      rw [hm]
      cases matchRem re prev [] <;> simp
    | cons a rest =>
      have hrest : rest.length ≤ fuel := by
        simp only [List.length_cons] at hs
        omega
      have hm := matchRem_map hre prev (a :: rest)
      rw [List.map_cons] at hm
      rw [List.map_cons, findallAux_cons, findallAux_cons, hm]
      cases hmm : matchRem re prev (a :: rest) with
      | none =>
        simp only [Option.map_none']
        exact ih (some a) rest hrest
      | some s' =>
        simp only [Option.map_some']
        have hlen : (pyToLower a :: rest.map pyToLower).length - (s'.map pyToLower).length
            = (a :: rest).length - s'.length := by
          simp
        rw [hlen]
        by_cases h0 : 0 < (a :: rest).length - s'.length
        · rw [if_pos h0, if_pos h0]
          have hdroplen : ((a :: rest).drop ((a :: rest).length - s'.length)).length ≤ fuel := by
            rw [List.length_drop]
            simp only [List.length_cons] at hs h0 ⊢
            omega
          have hrec := ih (prevAfter prev (a :: rest) ((a :: rest).length - s'.length))
            ((a :: rest).drop ((a :: rest).length - s'.length)) hdroplen
          rw [List.map_cons]
          congr 1
          · rw [← List.map_cons, List.map_take]
          · rw [← prevAfter_map, List.map_drop, List.map_cons] at hrec
            exact hrec
        · rw [if_neg h0, if_neg h0]
          rw [List.map_cons]
          congr 1
          exact ih (some a) rest hrest

/-- The skill pattern is lowercasing-invariant. -/
theorem skillRE_inv : ∀ pm ∈ skillRE, PrimInv pm := by
  intro pm hpm
  simp only [skillRE, List.mem_cons, List.not_mem_nil, or_false] at hpm
  rcases hpm with rfl | rfl | rfl
  · trivial
  · exact skillChar_pyToLower
  · trivial

/-- Scanning lowercase text for skill tokens is the same as scanning the
raw text and lowercasing each token. -/
theorem pyFindall_skill_lower (t : List Char) :
    pyFindall skillRE (pyLower t) = (pyFindall skillRE t).map (List.map pyToLower) := by
  unfold pyFindall pyLower
  rw [List.length_map]
  have := findallAux_map skillRE_inv t.length none t (le_refl _)
  simpa using this

/-! ## Strip and membership lemmas -/

/-- dropWhile is the identity when no element satisfies the predicate. -/
theorem dropWhile_eq_self_of_all {p : Char → Bool} {l : List Char}
    (h : ∀ c ∈ l, p c = false) : l.dropWhile p = l := by
  cases l with
  | nil => rfl
  | cons a t =>
    rw [List.dropWhile_cons, if_neg]
    rw [h a (List.mem_cons_self a t)]
    simp

/-- Stripping is the identity on a token with no whitespace characters. -/
theorem pyStrip_eq_self {l : List Char} (h : ∀ c ∈ l, wsChar c = false) :
    pyStrip l = l := by
  unfold pyStrip
  rw [dropWhile_eq_self_of_all h]
  rw [dropWhile_eq_self_of_all (fun c hc => h c (List.mem_reverse.mp hc))]
  exact List.reverse_reverse l

/-- Characters surviving a strip were in the original token. -/
theorem mem_pyStrip {c : Char} {l : List Char} (h : c ∈ pyStrip l) : c ∈ l := by
  unfold pyStrip at h
  rw [List.mem_reverse] at h
  have h3 : c ∈ (l.dropWhile wsChar).reverse :=
    List.Sublist.mem h (List.dropWhile_sublist _)
  rw [List.mem_reverse] at h3
  exact List.Sublist.mem h3 (List.dropWhile_sublist _)

/-! ## Job-description tokenization (claims C5, C10) -/

/-- The tokenization rule stated by the spec for extract_skills_from_jd:
the same rule as resume skill tokenization (lowercase the whole text, then
scan with the skill pattern), with the tokens kept as an ordered sequence
in order of appearance, without deduplication.  This definition follows
the spec wording; the theorem below compares it with the source
definition. -/
def jdTokensSpec (t : String) : List String :=
  (pyFindall skillRE (pyLower t.data)).map (fun m => (⟨m⟩ : String))

/-- Claim C5: extract_skills_from_jd tokenizes by the same rule as resume
skill tokenization, returning the ordered non-deduplicated sequence, and
consequently its elements coincide with the candidate skill set extracted
from the same text. -/
theorem extract_skills_from_jd_same_rule (t : String) :
    extract_skills_from_jd t = jdTokensSpec t ∧
    ∀ x : String, x ∈ extract_skills_from_jd t ↔ x ∈ (extract_candidate_details t).Skills := by
  have hmain : extract_skills_from_jd t = jdTokensSpec t := by
    unfold extract_skills_from_jd jdTokensSpec
    rw [pyFindall_skill_lower, List.map_map]
    apply List.map_congr_left
    intro m hm
    have hall : ∀ c ∈ m, skillChar c = true :=
      findallAux_skill_chars t.data.length none t.data (le_refl _) m hm
    have hlow : ∀ c ∈ pyLower m, wsChar c = false := by
      intro c hc
      rcases List.mem_map.mp hc with ⟨c', hc', rfl⟩
      have h2 : skillChar (pyToLower c') = true := by
        rw [skillChar_pyToLower]
        exact hall c' hc'
      exact skillChar_not_ws h2
    simp only [Function.comp]
    congr 1
    exact pyStrip_eq_self hlow
  refine ⟨hmain, ?_⟩
  intro x
  have hsk : (extract_candidate_details t).Skills = (jdTokensSpec t).dedup := rfl
  rw [hmain, hsk]
  exact (List.mem_dedup).symm

/-- Claim C10: tokens of extract_skills_from_jd never contain whitespace
or a slash, and on the static role descriptions the multi-word phrase
Machine Learning and the slash-joined CI/CD split into separate
single-word tokens. -/
theorem jd_tokens_no_space_no_slash :
    (∀ t : String, ∀ tok ∈ extract_skills_from_jd t, ∀ c ∈ tok.data,
      wsChar c = false ∧ c ≠ '/') ∧
    extract_skills_from_jd (role_skill_text "Data Scientist") =
      ["python", "sql", "machine", "learning", "statistics", "pandas", "numpy"] ∧
    extract_skills_from_jd (role_skill_text "DevOps Engineer") =
      ["aws", "docker", "kubernetes", "linux", "ci", "cd"] := by
  refine ⟨?_, by decide, by decide⟩
  intro t tok htok c hc
  unfold extract_skills_from_jd at htok
  rcases List.mem_map.mp htok with ⟨m, hm, rfl⟩
  have hc2 : c ∈ pyLower m := mem_pyStrip hc
  rcases List.mem_map.mp hc2 with ⟨c', hc', rfl⟩
  have hall : ∀ d ∈ m, skillChar d = true :=
    findallAux_skill_chars t.data.length none t.data (le_refl _) m hm
  have h2 : skillChar (pyToLower c') = true := by
    rw [skillChar_pyToLower]
    exact hall c' hc'
  exact ⟨skillChar_not_ws h2, skillChar_ne_slash h2⟩

/-- Claim C10 witness: the token ci of the DevOps Engineer description and
its first character, which is neither whitespace nor a slash. -/
theorem jd_tokens_no_space_no_slash_witness :
    wsChar 'c' = false ∧ 'c' ≠ '/' :=
  jd_tokens_no_space_no_slash.1 (role_skill_text "DevOps Engineer") "ci"
    (by decide) 'c' (by decide)

/-! ## Absence and first occurrence of matches (claims C6, C7) -/

/-- If no position of the input admits a match, the scan returns no
tokens. -/
theorem findallAux_eq_nil (re : RE) :
    ∀ (fuel : Nat) (prev : Option Char) (s : List Char), s.length ≤ fuel →
      (∀ i, i ≤ s.length → matchRem re (prevAfter prev s i) (s.drop i) = none) →
      findallAux re fuel prev s = [] := by
  intro fuel
  induction fuel with
  | zero =>
    intro prev s hs hnone
    have hnil : s = [] := List.length_eq_zero.mp (Nat.le_zero.mp hs)
    subst hnil
    rw [findallAux_nil]
    have h0 : matchRem re prev [] = none := by
      have := hnone 0 (Nat.zero_le _)
      simpa [prevAfter] using this
    rw [h0]
  | succ fuel ih =>
    intro prev s hs hnone
    cases s with
    | nil =>
      rw [findallAux_nil]
      have h0 : matchRem re prev [] = none := by
        have := hnone 0 (Nat.zero_le _)
        simpa [prevAfter] using this
      rw [h0]
    | cons a rest =>
      have h0 : matchRem re prev (a :: rest) = none := by
        have := hnone 0 (Nat.zero_le _)
        simpa [prevAfter] using this
      rw [findallAux_cons, h0]
      apply ih (some a) rest (by simp only [List.length_cons] at hs; omega)
      intro i hi
      have := hnone (i + 1) (by simp only [List.length_cons]; omega)
      rwa [prevAfter_cons hi, List.drop_succ_cons] at this

/-- The first token of the scan is the segment consumed at the leftmost
matching position: there is a position that matches while all earlier
positions do not, and the first token is exactly the text the committed
match consumes there. -/
theorem findallAux_head (re : RE) :
    ∀ (fuel : Nat) (prev : Option Char) (s : List Char), s.length ≤ fuel →
      ∀ m ms, findallAux re fuel prev s = m :: ms →
      ∃ i s', i ≤ s.length ∧
        (∀ j, j < i → matchRem re (prevAfter prev s j) (s.drop j) = none) ∧
        matchRem re (prevAfter prev s i) (s.drop i) = some s' ∧
        m = (s.drop i).take ((s.drop i).length - s'.length) := by
  intro fuel
  induction fuel with
  | zero =>
    intro prev s hs m ms hfind
    have hnil : s = [] := List.length_eq_zero.mp (Nat.le_zero.mp hs)
    subst hnil
    rw [findallAux_nil] at hfind
    cases hm : matchRem re prev [] with
    | none =>
      rw [hm] at hfind
      simp at hfind
    | some s' =>
      rw [hm] at hfind
      injection hfind with hm1 hm2
      subst hm1
      refine ⟨0, s', Nat.zero_le _, fun j hj => absurd hj (Nat.not_lt_zero j),
        by simpa [prevAfter] using hm, ?_⟩
      simp
  | succ fuel ih =>
    intro prev s hs m ms hfind
    cases s with
    | nil =>
      rw [findallAux_nil] at hfind
      cases hm : matchRem re prev [] with
      | none =>
        rw [hm] at hfind
        simp at hfind
      | some s' =>
        rw [hm] at hfind
        injection hfind with hm1 hm2
        subst hm1
        refine ⟨0, s', Nat.zero_le _, fun j hj => absurd hj (Nat.not_lt_zero j),
          by simpa [prevAfter] using hm, ?_⟩
        simp
    | cons a rest =>
      cases hm : matchRem re prev (a :: rest) with
      | some s' =>
        have red : findallAux re (fuel + 1) prev (a :: rest) =
            if 0 < (a :: rest).length - s'.length then
              (a :: rest).take ((a :: rest).length - s'.length) ::
                findallAux re fuel
                  (prevAfter prev (a :: rest) ((a :: rest).length - s'.length))
                  ((a :: rest).drop ((a :: rest).length - s'.length))
            else [] :: findallAux re fuel (some a) rest := by
          rw [findallAux_cons, hm]
        rw [red] at hfind
        by_cases h0 : 0 < (a :: rest).length - s'.length
        · rw [if_pos h0] at hfind
          injection hfind with hm1 hm2
          refine ⟨0, s', Nat.zero_le _, fun j hj => absurd hj (Nat.not_lt_zero j),
            by simpa [prevAfter] using hm, ?_⟩
          simp only [List.drop_zero]
          exact hm1.symm
        · rw [if_neg h0] at hfind
          injection hfind with hm1 hm2
          subst hm1
          refine ⟨0, s', Nat.zero_le _, fun j hj => absurd hj (Nat.not_lt_zero j),
            by simpa [prevAfter] using hm, ?_⟩
          simp only [List.drop_zero]
          rw [show (a :: rest).length - s'.length = 0 from by omega, List.take_zero]
      | none =>
        rw [findallAux_cons, hm] at hfind
        obtain ⟨i, s', hile, hprior, hsome, hseg⟩ :=
          ih (some a) rest (by simp only [List.length_cons] at hs; omega) m ms hfind
        refine ⟨i + 1, s', by simp only [List.length_cons]; omega, ?_, ?_, ?_⟩
        · intro j hj
          cases j with
          | zero => simpa [prevAfter] using hm
          | succ j' =>
            have hj' : j' < i := Nat.lt_of_succ_lt_succ hj
            have hj'le : j' ≤ rest.length := le_trans (Nat.le_of_lt hj') hile
            rw [prevAfter_cons hj'le, List.drop_succ_cons]
            exact hprior j' hj'
        · rw [prevAfter_cons hile, List.drop_succ_cons]
          exact hsome
        · rw [List.drop_succ_cons]
          exact hseg

/-- Claim C6: extract_candidate_details is total (it is a plain function
of the input string) and degrades to the documented sentinels: whenever a
field pattern matches at no position of the text, the field is Unknown for
the name and Not Found for the email and the phone. -/
theorem extract_candidate_details_sentinels (t : String) :
    ((∀ i, i ≤ t.data.length →
        matchRem nameRE (prevAfter none t.data i) (t.data.drop i) = none) →
      (extract_candidate_details t).Name = "Unknown") ∧
    ((∀ i, i ≤ t.data.length →
        matchRem emailRE (prevAfter none t.data i) (t.data.drop i) = none) →
      (extract_candidate_details t).Email = "Not Found") ∧
    ((∀ i, i ≤ t.data.length →
        matchRem phoneRE (prevAfter none t.data i) (t.data.drop i) = none) →
      (extract_candidate_details t).Phone = "Not Found") := by
  refine ⟨?_, ?_, ?_⟩ <;> intro h
  · have hnil : pyFindall nameRE t.data = [] :=
      findallAux_eq_nil nameRE t.data.length none t.data (le_refl _) h
    simp [extract_candidate_details, hnil]
  · have hnil : pyFindall emailRE t.data = [] :=
      findallAux_eq_nil emailRE t.data.length none t.data (le_refl _) h
    simp [extract_candidate_details, hnil]
  · have hnil : pyFindall phoneRE t.data = [] :=
      findallAux_eq_nil phoneRE t.data.length none t.data (le_refl _) h
    simp [extract_candidate_details, hnil]

/-- Claim C6 witness: the empty input yields the three sentinels. -/
theorem extract_candidate_details_sentinels_witness :
    (extract_candidate_details "").Name = "Unknown" ∧
    (extract_candidate_details "").Email = "Not Found" ∧
    (extract_candidate_details "").Phone = "Not Found" :=
  ⟨(extract_candidate_details_sentinels "").1 (by decide),
   (extract_candidate_details_sentinels "").2.1 (by decide),
   (extract_candidate_details_sentinels "").2.2 (by decide)⟩

/-- The name pattern as worded by claim C7: the separator is exactly one
space character rather than arbitrary whitespace.  This definition follows
the claim wording, for comparison with the source pattern. -/
def spaceNameRE : RE :=
  [.cls upperChar, .rep lowerChar 1 none, .cls (fun c => decide (c.toNat = 32)),
   .cls upperChar, .rep lowerChar 1 none]

/-- Claim C7, counterexample: on the text of Jo, a newline and Sm, the
space-separated pattern of the claim occurs nowhere, so the claim predicts
the sentinel Unknown, yet the source pattern accepts the newline as
separator and extract_candidate_details returns the bigram containing the
newline. -/
theorem name_space_cex :
    (extract_candidate_details "Jo\nSm").Name = "Jo\nSm" ∧
    "Jo\nSm" ≠ "Unknown" ∧
    (∀ i, i ≤ ("Jo\nSm" : String).data.length →
      matchRem spaceNameRE (prevAfter none ("Jo\nSm" : String).data i)
        (("Jo\nSm" : String).data.drop i) = none) :=
  ⟨by decide, by decide, by decide⟩

/-- Claim C7 as amended: name extraction returns the first occurrence of
two capitalized words separated by one whitespace character (not only a
space): when the pattern matches at no position the result is Unknown;
otherwise there is a leftmost matching position, no earlier position
matches, and the returned Name is exactly the string of the segment the
pattern consumes at that position; on John Smith works here the result is
John Smith. -/
theorem name_extraction_whitespace_bigram :
    (∀ t : String,
      (∀ i, i ≤ t.data.length →
        matchRem nameRE (prevAfter none t.data i) (t.data.drop i) = none) →
      (extract_candidate_details t).Name = "Unknown") ∧
    (∀ t : String, (extract_candidate_details t).Name ≠ "Unknown" →
      ∃ i s', i ≤ t.data.length ∧
        (∀ j, j < i →
          matchRem nameRE (prevAfter none t.data j) (t.data.drop j) = none) ∧
        matchRem nameRE (prevAfter none t.data i) (t.data.drop i) = some s' ∧
        (extract_candidate_details t).Name =
          ⟨(t.data.drop i).take ((t.data.drop i).length - s'.length)⟩) ∧
    (extract_candidate_details "John Smith works here").Name = "John Smith" := by
  refine ⟨?_, ?_, by decide⟩
  · intro t h
    have hnil : pyFindall nameRE t.data = [] :=
      findallAux_eq_nil nameRE t.data.length none t.data (le_refl _) h
    simp [extract_candidate_details, hnil]
  · intro t h
    cases hf : pyFindall nameRE t.data with
    | nil =>
      refine absurd ?_ h
      simp [extract_candidate_details, hf]
    | cons m ms =>
      have hname : (extract_candidate_details t).Name = ⟨m⟩ := by
        simp [extract_candidate_details, hf]
      obtain ⟨i, s', hile, hprior, hsome, hseg⟩ :=
        findallAux_head nameRE t.data.length none t.data (le_refl _) m ms hf
      refine ⟨i, s', hile, hprior, hsome, ?_⟩
      rw [hname, hseg]

/-- Claim C7 witness: the amended theorem evaluated on a text with no
capitalized bigram, which yields Unknown, and on the John Smith
example. -/
theorem name_extraction_whitespace_bigram_witness :
    (extract_candidate_details "resume text 123").Name = "Unknown" ∧
    (extract_candidate_details "John Smith works here").Name = "John Smith" :=
  ⟨name_extraction_whitespace_bigram.1 "resume text 123" (by decide),
   name_extraction_whitespace_bigram.2.2⟩

/-- Claim C1 witness: the partition property evaluated at the concrete
job tokens python and sql against the candidate set holding python. -/
theorem detect_skill_gaps_partition_witness :
    (("python" ∈ (detect_skill_gaps ["python", "sql"] ["python"]).1 ∨
      "python" ∈ (detect_skill_gaps ["python", "sql"] ["python"]).2) ↔
        "python" ∈ ["python", "sql"]) ∧
    ¬("python" ∈ (detect_skill_gaps ["python", "sql"] ["python"]).1 ∧
      "python" ∈ (detect_skill_gaps ["python", "sql"] ["python"]).2) :=
  ⟨(detect_skill_gaps_partition ["python", "sql"] ["python"]).1 "python",
   (detect_skill_gaps_partition ["python", "sql"] ["python"]).2 "python"⟩

/-- Claim C4 witness: the exact-classification property evaluated on the
concrete example of the claim at the token sql. -/
theorem detect_skill_gaps_exact_witness :
    ("sql" ∈ (detect_skill_gaps ["python", "sql", "react"] ["python", "java"]).2 ↔
      "sql" ∈ ["python", "sql", "react"] ∧ "sql" ∉ ["python", "java"]) ∧
    detect_skill_gaps ["python", "sql", "react"] ["python", "java"] =
      (["python"], ["sql", "react"]) :=
  ⟨(detect_skill_gaps_exact ["python", "sql", "react"] ["python", "java"]).2.1 "sql",
   (detect_skill_gaps_exact ["python", "sql", "react"] ["python", "java"]).2.2.2.2⟩

/-- Claim C5 witness: the refinement evaluated on the Backend Developer
description and the token python. -/
theorem extract_skills_from_jd_same_rule_witness :
    extract_skills_from_jd "Python Django Flask SQL APIs" =
      jdTokensSpec "Python Django Flask SQL APIs" ∧
    ("python" ∈ extract_skills_from_jd "Python Django Flask SQL APIs" ↔
      "python" ∈ (extract_candidate_details "Python Django Flask SQL APIs").Skills) :=
  ⟨(extract_skills_from_jd_same_rule "Python Django Flask SQL APIs").1,
   (extract_skills_from_jd_same_rule "Python Django Flask SQL APIs").2 "python"⟩
